import Mathlib

/-!
Verification of the `circus` repository: a value-representation abstraction
layer with a direct-evaluation backend (`Eval`), an arithmetic-constraint
backend (`ArithmeticSystem`), a binary-emulation layer (`BinaryEmulate`),
and a SHA-256 compression gadget.

Machine integers (`u32`) are modelled as `Nat` with explicit reduction
modulo `2 ^ 32` where overflow matters.
-/

namespace Circus

/-! ## Direct-evaluation backend (`src/system.rs`, `struct Eval`)

The `Eval` backend's abstract handle is the concrete value itself; every
capability delegates to the native operation.  `u32` values are `Nat`s that
are kept below `2 ^ 32`.
-/

namespace EvalU32

/-- Embedding of `impl SystemRepr<u32> for Eval`: `constant` is the identity. -/
def constant (value : Nat) : Nat := value

/-- Embedding of `impl SystemWrappingAdd<u32> for Eval`: `a.wrapping_add(*b)`,
i.e. addition modulo `2 ^ 32`. -/
def wrapping_add (a b : Nat) : Nat := (a + b) % 2 ^ 32

/-- Embedding of `Eval`'s `SystemBitAnd` at `u32`: native `a & b`. -/
def and (a b : Nat) : Nat := a &&& b

/-- Embedding of `Eval`'s `SystemBitOr` at `u32`: native `a | b`. -/
def or (a b : Nat) : Nat := a ||| b

/-- Embedding of `Eval`'s `SystemBitXor` at `u32`: native `a ^ b`. -/
def xor (a b : Nat) : Nat := a ^^^ b

/-- Embedding of `Eval`'s `SystemNot` at `u32`: Rust `!a` flips all 32 bits. -/
def not (a : Nat) : Nat := a ^^^ 0xffffffff

/-- Embedding of `Eval`'s `SystemBitShift::shl` at `u32`: `a << b`
(the result wraps into 32 bits on `u32`). -/
def shl (a b : Nat) : Nat := (a <<< b) % 2 ^ 32

/-- Embedding of `Eval`'s `SystemBitShift::shr` at `u32`: `a >> b`. -/
def shr (a b : Nat) : Nat := a >>> b

/-- Embedding of `Eval`'s `SystemBitRotate::rotl` at `u32`:
`a.rotate_left(b)`.  Rust's `rotate_left` uses the rotation amount modulo
the bit width; for `a < 2 ^ 32` the two disjoint parts are combined with
bitwise or. -/
def rotl (a b : Nat) : Nat :=
  ((a <<< (b % 32)) % 2 ^ 32) ||| (a >>> (32 - b % 32))

/-- Embedding of `Eval`'s `SystemBitRotate::rotr` at `u32`:
`a.rotate_right(b)`. -/
def rotr (a b : Nat) : Nat :=
  (a >>> (b % 32)) ||| ((a <<< (32 - b % 32)) % 2 ^ 32)

end EvalU32

namespace EvalBool

/-- Embedding of `Eval`'s `SystemBitAnd` at `bool`: native `a & b`. -/
def and (a b : Bool) : Bool := a && b

/-- Embedding of `Eval`'s `SystemBitOr` at `bool`: native `a | b`. -/
def or (a b : Bool) : Bool := a || b

/-- Embedding of `Eval`'s `SystemBitXor` at `bool`: native `a ^ b`. -/
def xor (a b : Bool) : Bool := a != b

/-- Embedding of `Eval`'s `SystemNot` at `bool`: native `!a`. -/
def not (a : Bool) : Bool := !a

end EvalBool

/-! ## SHA-256 gadget (`src/crypto/hash/sha2.rs`), instantiated at `Eval`

The gadget is generic over the backend; this is its shallow embedding at
the direct-evaluation backend, where a `u32` handle is a `Nat` below
`2 ^ 32`.  The hash state is the list of the 8 state words.
-/

namespace Sha256

/-- The SHA-256 initial chaining values (`const H` in `sha2.rs`). -/
def H : List Nat :=
  [0x6a09e667, 0xbb67ae85, 0x3c6ef372, 0xa54ff53a] ++
  [0x510e527f, 0x9b05688c, 0x1f83d9ab, 0x5be0cd19]

/-- The SHA-256 round constants (`const K` in `sha2.rs`), in rounds 0-63
order, written in groups of four. -/
def K : List Nat :=
  [0x428a2f98, 0x71374491, 0xb5c0fbcf, 0xe9b5dba5] ++
  [0x3956c25b, 0x59f111f1, 0x923f82a4, 0xab1c5ed5] ++
  [0xd807aa98, 0x12835b01, 0x243185be, 0x550c7dc3] ++
  [0x72be5d74, 0x80deb1fe, 0x9bdc06a7, 0xc19bf174] ++
  [0xe49b69c1, 0xefbe4786, 0x0fc19dc6, 0x240ca1cc] ++
  [0x2de92c6f, 0x4a7484aa, 0x5cb0a9dc, 0x76f988da] ++
  [0x983e5152, 0xa831c66d, 0xb00327c8, 0xbf597fc7] ++
  [0xc6e00bf3, 0xd5a79147, 0x06ca6351, 0x14292967] ++
  [0x27b70a85, 0x2e1b2138, 0x4d2c6dfc, 0x53380d13] ++
  [0x650a7354, 0x766a0abb, 0x81c2c92e, 0x92722c85] ++
  [0xa2bfe8a1, 0xa81a664b, 0xc24b8b70, 0xc76c51a3] ++
  [0xd192e819, 0xd6990624, 0xf40e3585, 0x106aa070] ++
  [0x19a4c116, 0x1e376c08, 0x2748774c, 0x34b0bcb5] ++
  [0x391c0cb3, 0x4ed8aa4a, 0x5b9cca4f, 0x682e6ff3] ++
  [0x748f82ee, 0x78a5636f, 0x84c87814, 0x8cc70208] ++
  [0x90befffa, 0xa4506ceb, 0xbef9a3f7, 0xc67178f2]

/-- Embedding of `Sha256::new()`: the initial chaining state. -/
def new : List Nat := H

/-- One step of the message-schedule loop (`for i in 16..64` in
`sha256_update`): extends the schedule `w` (whose length is the current
index `i`) by the word `w[i]`. -/
def scheduleStep (w : List Nat) : List Nat :=
  let i := w.length
  let s0w := w.getD (i - 15) 0
  let t0 := EvalU32.rotr s0w 7
  let t1 := EvalU32.rotr s0w 18
  let t2 := EvalU32.shr s0w 3
  let s0 := EvalU32.xor (EvalU32.xor t0 t1) t2
  let s1w := w.getD (i - 2) 0
  let u0 := EvalU32.rotr s1w 17
  let u1 := EvalU32.rotr s1w 19
  let u2 := EvalU32.shr s1w 10
  let s1 := EvalU32.xor (EvalU32.xor u0 u1) u2
  let r := EvalU32.wrapping_add (w.getD (i - 16) 0) s0
  let r := EvalU32.wrapping_add r (w.getD (i - 7) 0)
  let r := EvalU32.wrapping_add r s1
  w ++ [r]

/-- The 64-word message schedule of `sha256_update`: the first 16 words are
the chunk, the remaining 48 come from the σ0/σ1 mixing loop. -/
def schedule (chunk : List Nat) : List Nat :=
  (List.range 48).foldl (fun w _ => scheduleStep w) chunk

/-- One round of the compression main loop (`for i in 0..64` in
`sha256_update`), acting on the working variables `[a, b, c, d, e, f, g, h]`. -/
def round (w : List Nat) (st : List Nat) (i : Nat) : List Nat :=
  let a := st.getD 0 0
  let b := st.getD 1 0
  let c := st.getD 2 0
  let d := st.getD 3 0
  let e := st.getD 4 0
  let f := st.getD 5 0
  let g := st.getD 6 0
  let h := st.getD 7 0
  let s1 := EvalU32.xor (EvalU32.xor (EvalU32.rotr e 6) (EvalU32.rotr e 11))
      (EvalU32.rotr e 25)
  let ch := EvalU32.xor (EvalU32.and e f) (EvalU32.and (EvalU32.not e) g)
  let temp1 := EvalU32.wrapping_add
      (EvalU32.wrapping_add (EvalU32.wrapping_add (EvalU32.wrapping_add h s1) ch)
        (K.getD i 0))
      (w.getD i 0)
  let s0 := EvalU32.xor (EvalU32.xor (EvalU32.rotr a 2) (EvalU32.rotr a 13))
      (EvalU32.rotr a 22)
  let maj := EvalU32.xor (EvalU32.xor (EvalU32.and a b) (EvalU32.and a c))
      (EvalU32.and b c)
  let temp2 := EvalU32.wrapping_add s0 maj
  [EvalU32.wrapping_add temp1 temp2, a, b, c,
   EvalU32.wrapping_add d temp1, e, f, g]

/-- Embedding of `SystemSha256::sha256_update` at the `Eval` backend: one
full SHA-256 compression of a 16-word chunk into the 8-word state. -/
def sha256_update (hasher : List Nat) (chunk : List Nat) : List Nat :=
  let w := schedule chunk
  let st := (List.range 64).foldl (round w) hasher
  (hasher.zip st).map (fun p => EvalU32.wrapping_add p.1 p.2)

/-- Hexadecimal digit characters, lowercase (as produced by Rust `{:x}`). -/
def hexDigitChar (n : Nat) : Char :=
  if n < 10 then Char.ofNat (48 + n) else Char.ofNat (87 + n)

/-- Hexadecimal rendering of one word, most-significant digit first, no
zero-padding (Rust `{:x}`; `0` renders as `"0"`).  The fuel argument bounds
the number of digits; 8 suffices for any `u32`. -/
def hexCharsAux : Nat → Nat → List Char
  | 0, _ => []
  | fuel + 1, n =>
    if n < 16 then [hexDigitChar n]
    else hexCharsAux fuel (n / 16) ++ [hexDigitChar (n % 16)]

/-- Hexadecimal rendering of a `u32` word (Rust `{:x}` on `u32`). -/
def hexChars (n : Nat) : List Char := hexCharsAux 8 n

/-- Embedding of `impl Display for Sha256`: the 8 state words rendered with
`{:x}` and concatenated. -/
def render (state : List Nat) : String :=
  String.mk ((state.map hexChars).flatten)

/-- The chunk encoding the empty message: 0x80000000 then fifteen zeros. -/
def emptyChunk : List Nat :=
  [0x80000000, 0, 0, 0, 0, 0, 0, 0, 0, 0, 0, 0, 0, 0, 0, 0]

end Sha256

/-! ## Binary-emulation layer (`src/binary.rs`), instantiated at `Eval`

`BinaryEmulate<S>` represents a `u32` as an ordered tuple of 32 boolean
handles.  At `S = Eval` a boolean handle is a `Bool`, so a word handle is a
list of 32 `Bool`s, least-significant bit first.
-/

namespace BinaryEmulate

/-- Embedding of `impl SystemRepr<u32> for BinaryEmulate<S>` at `S = Eval`:
`array_init(|i| self.constant(value >> i != 0))`.  Note the source computes
bit `i` as `value >> i != 0` (is any bit at position `i` or above set?),
not as `(value >> i) & 1 != 0`. -/
def constant (value : Nat) : List Bool :=
  (List.range 32).map (fun i => decide (value >>> i ≠ 0))

/-- Bit `i` of the spec's description of `constant`: the tuple whose entry
`i` is the boolean `(v >> i) & 1 == 1`, least-significant bit first.  This
definition follows the spec's words (§4.4) and is compared against the
source's `constant` above. -/
def constantSpec (value : Nat) : List Bool :=
  (List.range 32).map (fun i => decide ((value >>> i) &&& 1 = 1))

/-- Decoding of a bit-sliced word, least-significant bit first: bit `i` of
the decoded value is entry `i` of the tuple. -/
def decode : List Bool → Nat
  | [] => 0
  | b :: bs => (if b then 1 else 0) + 2 * decode bs

/-- The genuine `k`-bit bit-slicing of a value, least-significant bit
first: entry `i` is bit `i` of `v`. -/
def toBits : Nat → Nat → List Bool
  | _, 0 => []
  | v, k + 1 => (v % 2 = 1 : Bool) :: toBits (v / 2) k

/-- Sum output of the full adder given by the spec (§4.4):
`sum = a ⊕ b ⊕ cin`. -/
def fullAdderSum (a b cin : Bool) : Bool :=
  EvalBool.xor (EvalBool.xor a b) cin

/-- Carry output of the full adder given by the spec (§4.4):
`cout = (a ∧ b) ∨ (cin ∧ (a ⊕ b))`. -/
def fullAdderCarry (a b cin : Bool) : Bool :=
  EvalBool.or (EvalBool.and a b) (EvalBool.and cin (EvalBool.xor a b))

/-- Modelled from the spec: `BinaryEmulate::wrapping_add` is `todo!()` in
`src/binary.rs`; §4.4 specifies a ripple-carry adder over the two bit
tuples, with initial carry false and the final carry-out discarded. -/
def rippleCarryAdd (cin : Bool) : List Bool → List Bool → List Bool
  | a :: as, b :: bs =>
    fullAdderSum a b cin :: rippleCarryAdd (fullAdderCarry a b cin) as bs
  | _, _ => []

/-- Modelled from the spec: the binary-emulation layer's wrapping addition
(stubbed with `todo!()` in the source) as the §4.4 ripple-carry adder with
initial carry the boolean constant false. -/
def wrapping_add (a b : List Bool) : List Bool :=
  rippleCarryAdd false a b

end BinaryEmulate

/-! ## Arithmetic-constraint backend (`src/r1cs.rs`)

`LinearFormula<F>` is a constant term plus a `BTreeMap` from variable index
to coefficient; we model the map as an association list sorted strictly by
key (the `BTreeMap` invariant).  The field `F` stays abstract.
-/

/-- Embedding of `struct LinearFormula<F>`: a constant term and a
coefficient map, modelled as an association list whose well-formed values
have strictly increasing keys. -/
structure LinearFormula (F : Type) where
  constant_term : F
  coeffs : List (Nat × F)
deriving DecidableEq

namespace LinearFormula

/-- Keys of the coefficient map are strictly increasing (the `BTreeMap`
invariant; iteration order is ascending by key). -/
def WF {F : Type} (φ : LinearFormula F) : Prop :=
  φ.coeffs.Chain' (fun p q => p.1 < q.1)

/-- Embedding of `LinearFormula::constant`: the given constant term and an
empty coefficient map. -/
def constant {F : Type} (value : F) : LinearFormula F :=
  { constant_term := value, coeffs := [] }

/-- Embedding of `LinearFormula::dim`: one more than the last key of the
coefficient map (`self.coeffs.keys().rev().next().map(|k| k + 1)`), or 0
when the map is empty.  For a sorted map the last key is the largest. -/
def dim {F : Type} (φ : LinearFormula F) : Nat :=
  match φ.coeffs.getLast? with
  | some p => p.1 + 1
  | none => 0

/-- Dimension according to the spec's words (§3, "Degree/dimension = one
more than the highest variable index with a nonzero coefficient (0 if no
variables referenced)").  Compared against the source's `dim` above. -/
def dimSpec {F : Type} [Zero F] [DecidableEq F] (φ : LinearFormula F) : Nat :=
  (φ.coeffs.filter (fun p => p.2 ≠ 0)).foldr (fun p m => max (p.1 + 1) m) 0

/-- Insertion of a coefficient into a sorted coefficient list, adding to an
existing entry with the same key. -/
def insertCoeff {F : Type} [Add F] (k : Nat) (c : F) :
    List (Nat × F) → List (Nat × F)
  | [] => [(k, c)]
  | (k2, c2) :: rest =>
    if k < k2 then (k, c) :: (k2, c2) :: rest
    else if k = k2 then (k, c + c2) :: rest
    else (k2, c2) :: insertCoeff k c rest

/-- Modelled from the spec: coefficient-map union with per-index addition
(§4.3; `impl Add for &LinearFormula` is `todo!()` in the source).  Indices
present in only one operand behave as coefficient 0 in the other; entries
that net to zero are kept (the spec permits but does not require dropping
them). -/
def addCoeffs {F : Type} [Add F] (xs ys : List (Nat × F)) : List (Nat × F) :=
  xs.foldr (fun p acc => insertCoeff p.1 p.2 acc) ys

/-- Modelled from the spec: linear-formula addition (`impl Add for
&LinearFormula` is `todo!()` in the source): add the constant terms and
add coefficients per index over the union of the key sets. -/
def add {F : Type} [Add F] (a b : LinearFormula F) : LinearFormula F :=
  { constant_term := a.constant_term + b.constant_term,
    coeffs := addCoeffs a.coeffs b.coeffs }

/-- Negation of every coefficient, keeping keys. -/
def negCoeffs {F : Type} [Neg F] (xs : List (Nat × F)) : List (Nat × F) :=
  xs.map (fun p => (p.1, -p.2))

/-- Modelled from the spec: linear-formula subtraction (`impl Sub for
&LinearFormula` is `todo!()` in the source): subtract the constant terms
and subtract coefficients per index (an index absent on one side behaves
as coefficient 0 there). -/
def sub {F : Type} [Add F] [Sub F] [Neg F] (a b : LinearFormula F) :
    LinearFormula F :=
  { constant_term := a.constant_term - b.constant_term,
    coeffs := addCoeffs a.coeffs (negCoeffs b.coeffs) }

/-- Evaluation of a coefficient list at an assignment of field values to
variable indices. -/
def evalCoeffs {F : Type} [Mul F] [Add F] [Zero F] (xs : List (Nat × F))
    (σ : Nat → F) : F :=
  xs.foldr (fun p acc => p.2 * σ p.1 + acc) 0

/-- Evaluation of a linear formula at an assignment: the constant term plus
the weighted sum of the assigned variable values. -/
def eval {F : Type} [Mul F] [Add F] [Zero F] (φ : LinearFormula F)
    (σ : Nat → F) : F :=
  φ.constant_term + evalCoeffs φ.coeffs σ

end LinearFormula

/-- Embedding of `struct ProductConstraint<F>`: an ordered triple of linear
formulas asserting `operand_a × operand_b = result`. -/
structure ProductConstraint (F : Type) where
  operand_a : LinearFormula F
  operand_b : LinearFormula F
  result : LinearFormula F
deriving DecidableEq

/-- Embedding of `ProductConstraint::dim`: the maximum of the three
formulas' dimensions. -/
def ProductConstraint.dim {F : Type} (c : ProductConstraint F) : Nat :=
  max (max c.operand_a.dim c.operand_b.dim) c.result.dim

/-- Embedding of `struct ArithmeticSystem<F>`: the declared-variable count
and the ordered list of accumulated product constraints. -/
structure ArithmeticSystem (F : Type) where
  num_vars : Nat
  constraints : List (ProductConstraint F)
deriving DecidableEq

namespace ArithmeticSystem

/-- Embedding of `ArithmeticSystem::new()`: no variables, no constraints. -/
def new (F : Type) : ArithmeticSystem F :=
  { num_vars := 0, constraints := [] }

/-- Embedding of `ArithmeticSystem::declare`: returns the fresh variable's
index and the updated system (the index is the old `num_vars`, which is
then incremented). -/
def declare {F : Type} (s : ArithmeticSystem F) : Nat × ArithmeticSystem F :=
  (s.num_vars, { s with num_vars := s.num_vars + 1 })

/-- Embedding of `ArithmeticSystem::satisfy`: `assert!(constraint.dim() <=
self.num_vars)` then push.  A failed assertion (a Rust panic) is modelled
as `none`. -/
def satisfy {F : Type} (s : ArithmeticSystem F) (c : ProductConstraint F) :
    Option (ArithmeticSystem F) :=
  if c.dim ≤ s.num_vars then
    some { s with constraints := s.constraints ++ [c] }
  else none

/-- Embedding of `impl SystemRepr<bool> for ArithmeticSystem<F>`: the
boolean constant is the formula with constant term 1 or 0 and no variable
terms. -/
def constBool {F : Type} [Zero F] [One F] (value : Bool) : LinearFormula F :=
  LinearFormula.constant (if value then 1 else 0)

/-- Embedding of `impl SystemNot<bool> for ArithmeticSystem<F>`:
`&LinearFormula::constant(F::one()) - value`; the system itself is not
touched (the `&mut self` receiver is returned unchanged). -/
def notBool {F : Type} [One F] [Add F] [Sub F] [Neg F]
    (s : ArithmeticSystem F) (value : LinearFormula F) :
    LinearFormula F × ArithmeticSystem F :=
  ((LinearFormula.constant 1).sub value, s)

/-- Modelled from the spec: boolean conjunction over the constraint backend
(`impl SystemBitAnd<bool> for ArithmeticSystem<F>` is `todo!()` in the
source).  §4.3: declare a new variable `c`, impose the product constraint
`a × b = c` through `satisfy`, and return the formula consisting solely of
`c` with coefficient 1. -/
def andBool {F : Type} [Zero F] [One F] (s : ArithmeticSystem F)
    (a b : LinearFormula F) : Option (LinearFormula F × ArithmeticSystem F) :=
  let d := s.declare
  let r : LinearFormula F := { constant_term := 0, coeffs := [(d.1, 1)] }
  (d.2.satisfy { operand_a := a, operand_b := b, result := r }).map
    (fun s2 => (r, s2))

/-- Embedding of `impl SystemBitOr<bool> for ArithmeticSystem<F>`:
`not(and(not(a), not(b)))`, threading the system state through each call
(`and` may fault, hence the option). -/
def orBool {F : Type} [Zero F] [One F] [Add F] [Sub F] [Neg F]
    (s : ArithmeticSystem F) (a b : LinearFormula F) :
    Option (LinearFormula F × ArithmeticSystem F) :=
  let a1 := s.notBool a
  let b1 := a1.2.notBool b
  match b1.2.andBool a1.1 b1.1 with
  | some rs => some (rs.2.notBool rs.1)
  | none => none

/-- Embedding of `impl SystemBitXor<bool> for ArithmeticSystem<F>`: when
`F::one() + F::one()` is zero (characteristic 2) the result is `a + b` with
the system untouched; the other branch is `todo!()` in the source, modelled
as `none`. -/
def xorBool {F : Type} [One F] [Add F] [DecidableEq F] [Zero F]
    (s : ArithmeticSystem F) (a b : LinearFormula F) :
    Option (LinearFormula F × ArithmeticSystem F) :=
  if (1 + 1 : F) = 0 then some (a.add b, s) else none

end ArithmeticSystem

/-- Commands available on an `ArithmeticSystem`: the state-mutating public
surface (`declare` and `satisfy`). -/
inductive Cmd (F : Type) where
  | declare : Cmd F
  | satisfy (c : ProductConstraint F) : Cmd F
deriving DecidableEq

/-- Runs a sequence of `declare`/`satisfy` calls; `none` when some
`satisfy` faults. -/
def runCmds {F : Type} (s : ArithmeticSystem F) :
    List (Cmd F) → Option (ArithmeticSystem F)
  | [] => some s
  | Cmd.declare :: cs => runCmds (s.declare).2 cs
  | Cmd.satisfy c :: cs =>
    match s.satisfy c with
    | some s2 => runCmds s2 cs
    | none => none

end Circus

namespace Circus

/-! ## Arithmetic helper lemmas -/

theorem two_mul_add_mod (x s m : Nat) (hs : s < 2) (hm : 0 < m) :
    (2 * x + s) % (2 * m) = 2 * (x % m) + s := by
  have h1 : x = m * (x / m) + x % m := (Nat.div_add_mod x m).symm
  have h2 : 2 * x + s = 2 * m * (x / m) + (2 * (x % m) + s) := by
    calc 2 * x + s = 2 * (m * (x / m) + x % m) + s := by rw [← h1]
    _ = 2 * m * (x / m) + (2 * (x % m) + s) := by ring
  rw [h2, Nat.mul_add_mod]
  exact Nat.mod_eq_of_lt (by have := Nat.mod_lt x hm; omega)

/-- Correctness of the spec's ripple-carry adder on genuine bit-slices: the
decoded output is the sum (plus carry-in) modulo `2 ^ k`. -/
theorem decode_rippleCarryAdd (k : Nat) : ∀ (a b : Nat) (c : Bool),
    BinaryEmulate.decode
        (BinaryEmulate.rippleCarryAdd c (BinaryEmulate.toBits a k)
          (BinaryEmulate.toBits b k))
      = (a + b + (if c then 1 else 0)) % 2 ^ k := by
  induction k with
  | zero =>
    intro a b c
    simp [BinaryEmulate.toBits, BinaryEmulate.rippleCarryAdd,
      BinaryEmulate.decode, Nat.mod_one]
  | succ k ih =>
    intro a b c
    have hm : (0 : Nat) < 2 ^ k := Nat.pos_pow_of_pos k (by omega)
    have key : ∀ s cw cv : Nat, s < 2 →
        a % 2 + b % 2 + cv = 2 * cw + s →
        (a + b + cv) % 2 ^ (k + 1)
          = s + 2 * ((a / 2 + b / 2 + cw) % 2 ^ k) := by
      intro s cw cv hs hsum
      have hsplit : a + b + cv
          = 2 * (a / 2 + b / 2 + cw) + s := by omega
      rw [hsplit, pow_succ, show (2 : Nat) ^ k * 2 = 2 * 2 ^ k from by ring,
        two_mul_add_mod _ _ _ hs hm]
      omega
    show BinaryEmulate.decode
        (BinaryEmulate.rippleCarryAdd c
          ((a % 2 = 1 : Bool) :: BinaryEmulate.toBits (a / 2) k)
          ((b % 2 = 1 : Bool) :: BinaryEmulate.toBits (b / 2) k)) = _
    rw [BinaryEmulate.rippleCarryAdd, BinaryEmulate.decode, ih]
    rcases Nat.mod_two_eq_zero_or_one a with h1 | h1 <;>
      rcases Nat.mod_two_eq_zero_or_one b with h2 | h2 <;> cases c <;>
      simp only [h1, h2, BinaryEmulate.fullAdderSum,
        BinaryEmulate.fullAdderCarry, EvalBool.xor, EvalBool.and,
        EvalBool.or] <;>
      norm_num <;>
      first
      | simpa using (key 0 0 0 (by omega) (by omega)).symm
      | simpa using (key 1 0 1 (by omega) (by omega)).symm
      | simpa using (key 1 0 0 (by omega) (by omega)).symm
      | simpa using (key 0 1 1 (by omega) (by omega)).symm
      | simpa using (key 0 1 0 (by omega) (by omega)).symm
      | simpa using (key 1 1 1 (by omega) (by omega)).symm

/-- The spec's bit-sliced adder, applied to tuples that genuinely decode to
`a` and `b`, decodes to `(a + b) mod 2 ^ 32`. -/
theorem wrapping_add_decodes (a b : Nat) :
    BinaryEmulate.decode
        (BinaryEmulate.wrapping_add (BinaryEmulate.toBits a 32)
          (BinaryEmulate.toBits b 32))
      = (a + b) % 2 ^ 32 := by
  simpa [BinaryEmulate.wrapping_add] using decode_rippleCarryAdd 32 a b false

/-! ## Claims C2 and C3: the binary-emulation layer -/

/-- C2: the spec says bit `i` of `BinaryEmulate::constant(v)` represents
`((v >> i) & 1) == 1`.  The source instead computes `v >> i != 0`, so at
`v = 2` the two disagree at bit 0: the code yields `true` (since
`2 >> 0 = 2 ≠ 0`), the spec's bit-slicing yields `false`.  This is a slip
in the code (it makes `constant` non-injective, defeating bit-slicing). -/
theorem binary_constant_diverges_from_bit_slicing :
    (BinaryEmulate.constant 2).getD 0 false = true ∧
    (BinaryEmulate.constantSpec 2).getD 0 false = false ∧
    BinaryEmulate.constant 2 ≠ BinaryEmulate.constantSpec 2 := by decide

/-- C3: with the §4.4 ripple-carry adder (the source's `wrapping_add` is
`todo!()`), the round-trip claimed by the spec and by the repository's own
`test_wrapping_add` fails at the test's input `a = 1234`, `b = 5678`:
`wrapping_add(constant(1234), constant(5678)) ≠ constant(6912)`, because
the source's `constant` computes bit `i` as `v >> i != 0` instead of
`(v >> i) & 1`.  On genuine bit-slices the same adder does decode to
`(a + b) mod 2 ^ 32` (second conjunct; cf. `wrapping_add_decodes`). -/
theorem binary_wrapping_add_test_fails :
    BinaryEmulate.wrapping_add (BinaryEmulate.constant 1234)
        (BinaryEmulate.constant 5678) ≠ BinaryEmulate.constant 6912 ∧
    BinaryEmulate.decode
        (BinaryEmulate.wrapping_add (BinaryEmulate.toBits 1234 32)
          (BinaryEmulate.toBits 5678 32)) = 6912 := by decide

end Circus

namespace Circus

/-! ## Claim C8: rotation and shift over the direct-evaluation backend -/

theorem pow_split (k : Nat) (hk : k ≤ 32) :
    (2 : Nat) ^ (32 - k) * 2 ^ k = 2 ^ 32 := by
  rw [← pow_add, Nat.sub_add_cancel hk]

theorem rotl_eq (x k : Nat) (hx : x < 2 ^ 32) (hk : k < 32) :
    EvalU32.rotl x k = 2 ^ k * (x % 2 ^ (32 - k)) + x / 2 ^ (32 - k) := by
  have hk32 : k ≤ 32 := le_of_lt hk
  have hkk : k % 32 = k := Nat.mod_eq_of_lt hk
  have hdiv : x / 2 ^ (32 - k) < 2 ^ k := by
    rw [Nat.div_lt_iff_lt_mul (Nat.pos_pow_of_pos _ (by omega))]
    calc x < 2 ^ 32 := hx
    _ = 2 ^ k * 2 ^ (32 - k) := by rw [← pow_add, Nat.add_sub_cancel' hk32]
  unfold EvalU32.rotl
  rw [hkk, Nat.shiftLeft_eq, Nat.shiftRight_eq_div_pow,
    show (2 : Nat) ^ 32 = 2 ^ (32 - k) * 2 ^ k from (pow_split k hk32).symm,
    Nat.mul_mod_mul_right,
    show x % 2 ^ (32 - k) * 2 ^ k = 2 ^ k * (x % 2 ^ (32 - k)) from by ring,
    ← Nat.mul_add_lt_is_or hdiv]

theorem rotr_eq (y k : Nat) (hy : y < 2 ^ 32) (hk : k < 32) :
    EvalU32.rotr y k = 2 ^ (32 - k) * (y % 2 ^ k) + y / 2 ^ k := by
  have hk32 : k ≤ 32 := le_of_lt hk
  have hkk : k % 32 = k := Nat.mod_eq_of_lt hk
  have hdiv : y / 2 ^ k < 2 ^ (32 - k) := by
    rw [Nat.div_lt_iff_lt_mul (Nat.pos_pow_of_pos _ (by omega))]
    calc y < 2 ^ 32 := hy
    _ = 2 ^ (32 - k) * 2 ^ k := (pow_split k hk32).symm
  unfold EvalU32.rotr
  rw [hkk, Nat.shiftLeft_eq, Nat.shiftRight_eq_div_pow,
    show (2 : Nat) ^ 32 = 2 ^ k * 2 ^ (32 - k) from by
      rw [← pow_add, Nat.add_sub_cancel' hk32],
    Nat.mul_mod_mul_right,
    show y % 2 ^ k * 2 ^ (32 - k) = 2 ^ (32 - k) * (y % 2 ^ k) from by ring,
    Nat.lor_comm, ← Nat.mul_add_lt_is_or hdiv]

/-- C8: for every 32-bit word `x` and every amount `k < 32`, the
direct-evaluation backend satisfies `rotr(rotl(x, k), k) = x`, and
`shr(x, k)` zero-fills the top `k` bits of the result (the bits at
positions `32 - k` and above are zero, i.e. shifting the result right by
`32 - k` yields 0). -/
theorem rotr_rotl_shr_consistent (x k : Nat) (hx : x < 2 ^ 32)
    (hk : k < 32) :
    EvalU32.rotr (EvalU32.rotl x k) k = x ∧
    EvalU32.shr x k >>> (32 - k) = 0 := by
  constructor
  · have hposk : (0 : Nat) < 2 ^ k := Nat.pos_pow_of_pos _ (by omega)
    have hposm : (0 : Nat) < 2 ^ (32 - k) := Nat.pos_pow_of_pos _ (by omega)
    have hlo : x % 2 ^ (32 - k) < 2 ^ (32 - k) := Nat.mod_lt _ hposm
    have hhi : x / 2 ^ (32 - k) < 2 ^ k := by
      rw [Nat.div_lt_iff_lt_mul hposm]
      calc x < 2 ^ 32 := hx
      _ = 2 ^ k * 2 ^ (32 - k) := by
        rw [← pow_add, Nat.add_sub_cancel' (le_of_lt hk)]
    have hy : EvalU32.rotl x k < 2 ^ 32 := by
      rw [rotl_eq x k hx hk]
      calc 2 ^ k * (x % 2 ^ (32 - k)) + x / 2 ^ (32 - k)
          < 2 ^ k * (x % 2 ^ (32 - k)) + 2 ^ k := by omega
      _ = 2 ^ k * (x % 2 ^ (32 - k) + 1) := by ring
      _ ≤ 2 ^ k * 2 ^ (32 - k) := Nat.mul_le_mul_left _ (by omega)
      _ = 2 ^ 32 := by rw [← pow_add, Nat.add_sub_cancel' (le_of_lt hk)]
    rw [rotr_eq _ k hy hk, rotl_eq x k hx hk,
      Nat.mul_add_mod, Nat.mod_eq_of_lt hhi,
      Nat.mul_add_div hposk, Nat.div_eq_of_lt hhi, Nat.add_zero]
    exact Nat.div_add_mod x (2 ^ (32 - k))
  · unfold EvalU32.shr
    rw [Nat.shiftRight_eq_div_pow, Nat.shiftRight_eq_div_pow,
      Nat.div_div_eq_div_mul, ← pow_add, Nat.add_sub_cancel' (le_of_lt hk)]
    exact Nat.div_eq_of_lt hx

/-- C8 witness: the theorem applied at `x = 0x12345678`, `k = 7`. -/
theorem rotr_rotl_shr_consistent_witness :
    0x12345678 < 2 ^ 32 ∧ 7 < 32 ∧
    (EvalU32.rotr (EvalU32.rotl 0x12345678 7) 7 = 0x12345678 ∧
      EvalU32.shr 0x12345678 7 >>> (32 - 7) = 0) :=
  ⟨by decide, by decide,
    rotr_rotl_shr_consistent 0x12345678 7 (by decide) (by decide)⟩

end Circus

namespace Circus

/-! ## Claim C10: digest rendering length -/

theorem hexCharsAux_length (f : Nat) : ∀ n : Nat, 0 < f → n < 16 ^ f →
    (Sha256.hexCharsAux f n).length
      = (if n = 0 then 0 else Nat.log 16 n) + 1 := by
  induction f with
  | zero => intro n h; omega
  | succ f ih =>
    intro n _ hn
    by_cases h16 : n < 16
    · rw [Sha256.hexCharsAux, if_pos h16]
      by_cases h0 : n = 0
      · simp [h0]
      · rw [if_neg h0, List.length_singleton]
        have : Nat.log 16 n = 0 := Nat.log_eq_zero_iff.mpr (Or.inl h16)
        omega
    · rw [Sha256.hexCharsAux, if_neg h16, List.length_append,
        List.length_singleton]
      have hf : 0 < f := by
        by_contra hf0
        have hz : f = 0 := by omega
        subst hz
        simp at hn
        omega
      have hdiv : n / 16 < 16 ^ f := by
        rw [Nat.div_lt_iff_lt_mul (by omega)]
        calc n < 16 ^ (f + 1) := hn
        _ = 16 ^ f * 16 := by ring
      rw [ih (n / 16) hf hdiv]
      have hd0 : n / 16 ≠ 0 := by
        have h16le : 16 ≤ n := by omega
        have := (Nat.one_le_div_iff (by omega : (0 : Nat) < 16)).mpr h16le
        omega
      rw [if_neg hd0, if_neg (by omega : ¬ n = 0)]
      have hlog : Nat.log 16 (n / 16) = Nat.log 16 n - 1 := Nat.log_div_base 16 n
      have hpos : 0 < Nat.log 16 n := Nat.log_pos (by omega) (by omega)
      omega

theorem hexChars_length_le (n : Nat) (hn : n < 2 ^ 32) :
    (Sha256.hexChars n).length ≤ 8 := by
  have h : n < 16 ^ 8 := by norm_num at hn ⊢; omega
  rw [Sha256.hexChars, hexCharsAux_length 8 n (by omega) h]
  by_cases h0 : n = 0
  · simp [h0]
  · rw [if_neg h0]
    have := Nat.log_lt_of_lt_pow h0 h
    omega

theorem hexChars_length_eq_iff (n : Nat) (hn : n < 2 ^ 32) :
    (Sha256.hexChars n).length = 8 ↔ 0x10000000 ≤ n := by
  have h : n < 16 ^ 8 := by norm_num at hn ⊢; omega
  rw [Sha256.hexChars, hexCharsAux_length 8 n (by omega) h]
  constructor
  · intro hlen
    by_cases h0 : n = 0
    · simp [h0] at hlen
    · rw [if_neg h0] at hlen
      have hlog : Nat.log 16 n = 7 := by omega
      have := Nat.pow_log_le_self 16 h0
      rw [hlog] at this
      norm_num at this ⊢
      omega
  · intro hge
    have h0 : n ≠ 0 := by norm_num at hge; omega
    rw [if_neg h0]
    have hlog : Nat.log 16 n = 7 :=
      Nat.log_eq_of_pow_le_of_lt_pow (by norm_num at hge ⊢; omega)
        (by norm_num; omega)
    omega

theorem flatten_hex_length : ∀ ws : List Nat, (∀ w ∈ ws, w < 2 ^ 32) →
    ((ws.map Sha256.hexChars).flatten).length ≤ 8 * ws.length ∧
    (((ws.map Sha256.hexChars).flatten).length = 8 * ws.length ↔
      ∀ w ∈ ws, 0x10000000 ≤ w) := by
  intro ws
  induction ws with
  | nil => simp
  | cons w ws ih =>
    intro hw
    have hwlt := hw w (List.mem_cons_self w ws)
    obtain ⟨ih1, ih2⟩ := ih (fun x hx => hw x (List.mem_cons_of_mem _ hx))
    simp only [List.map_cons, List.flatten_cons, List.length_append,
      List.length_cons]
    have hle := hexChars_length_le w hwlt
    have hiff := hexChars_length_eq_iff w hwlt
    refine ⟨by omega, ?_, ?_⟩
    · intro he x hx
      rcases List.mem_cons.mp hx with rfl | hx
      · exact hiff.mp (by omega)
      · exact (ih2.mp (by omega)) x hx
    · intro hall
      have h1 := hiff.mpr (hall w (List.mem_cons_self w ws))
      have h2 := ih2.mpr (fun x hx => hall x (List.mem_cons_of_mem _ hx))
      omega

/-- C10: the `Display` implementation concatenates the 8 state words in
lowercase hexadecimal without zero-padding, so whenever some word is below
`0x10000000` the rendered digest has fewer than 64 characters, and the
digest has exactly 64 characters precisely when every word has a nonzero
top nibble (is at least `0x10000000`). -/
theorem sha256_render_length (ws : List Nat) (h8 : ws.length = 8)
    (hw : ∀ w ∈ ws, w < 2 ^ 32) :
    ((ws.any (fun w => decide (w < 0x10000000))) = true →
      (Sha256.render ws).length < 64) ∧
    ((Sha256.render ws).length = 64 ↔
      (ws.all (fun w => decide (0x10000000 ≤ w))) = true) := by
  obtain ⟨h1, h2⟩ := flatten_hex_length ws hw
  have hrl : (Sha256.render ws).length
      = ((ws.map Sha256.hexChars).flatten).length := rfl
  rw [h8] at h1 h2
  constructor
  · intro hany
    rw [List.any_eq_true] at hany
    obtain ⟨x, hx, hxlt⟩ := hany
    rw [hrl]
    rcases Nat.lt_or_ge ((ws.map Sha256.hexChars).flatten).length 64 with h | h
    · omega
    · exfalso
      have := h2.mp (by omega) x hx
      simp at hxlt
      omega
  · rw [hrl, List.all_eq_true]
    constructor
    · intro he x hx
      simpa using h2.mp (by omega) x hx
    · intro hall
      have := h2.mpr (fun x hx => by simpa using hall x hx)
      omega

/-- C10 witness: the theorem applied to the initial chaining state `H`,
whose 8 words all have a nonzero top nibble, so its rendering has exactly
64 characters. -/
theorem sha256_render_length_witness :
    Sha256.H.length = 8 ∧ (∀ w ∈ Sha256.H, w < 2 ^ 32) ∧
    (((Sha256.H.any (fun w => decide (w < 0x10000000))) = true →
        (Sha256.render Sha256.H).length < 64) ∧
      ((Sha256.render Sha256.H).length = 64 ↔
        (Sha256.H.all (fun w => decide (0x10000000 ≤ w))) = true)) :=
  ⟨by decide, by decide,
    sha256_render_length Sha256.H (by decide) (by decide)⟩

end Circus

namespace Circus

/-! ## Claim C1: the empty-message digest through `Eval` -/

set_option maxRecDepth 100000 in
/-- C1 counterexample: the digest rendered from one compression of the
empty-message chunk is NOT the 63-character string quoted by the spec
(`...7852b85`, which is missing the final `5` of the SHA-256 empty-string
digest). -/
theorem sha256_empty_digest_ne_spec_quoted :
    Sha256.render (Sha256.sha256_update Sha256.new Sha256.emptyChunk)
      ≠ "e3b0c44298fc1c149afbf4c8996fb92427ae41e4649b934ca495991b7852b85" := by
  decide

set_option maxRecDepth 100000 in
/-- C1 (amended): running one SHA-256 compression through the
direct-evaluation backend on the empty-message chunk, starting from the
initial chaining state, renders to the well-known 64-character SHA-256
empty-string digest `e3b0...b855` (as asserted by the repository's own
`test_empty`). -/
theorem sha256_empty_digest :
    Sha256.render (Sha256.sha256_update Sha256.new Sha256.emptyChunk)
      = "e3b0c44298fc1c149afbf4c8996fb92427ae41e4649b934ca495991b7852b855" := by
  decide

/-! ## Claim C7: boolean-algebra laws of negation and disjunction -/

/-- C7: the arithmetic-constraint backend's `or` is exactly de Morgan's
`not(and(not(a), not(b)))` (first conjunct, with the state threaded through
each call), and over the direct-evaluation backend double negation is the
identity, disjunction satisfies de Morgan's law, and `or` is native `||`,
for all boolean operands. -/
theorem bool_algebra_laws {F : Type} [Zero F] [One F] [Add F] [Sub F]
    [Neg F] (s : ArithmeticSystem F) (x y : LinearFormula F) (a b : Bool) :
    ArithmeticSystem.orBool s x y =
      ((((s.notBool x).2.notBool y).2.andBool (s.notBool x).1
          ((s.notBool x).2.notBool y).1).map
        (fun rs => rs.2.notBool rs.1)) ∧
    EvalBool.not (EvalBool.not a) = a ∧
    EvalBool.or a b
      = EvalBool.not (EvalBool.and (EvalBool.not a) (EvalBool.not b)) ∧
    EvalBool.or a b = (a || b) := by
  refine ⟨?_, ?_, ?_, rfl⟩
  · rw [ArithmeticSystem.orBool]
    cases h : (((s.notBool x).2.notBool y).2.andBool (s.notBool x).1
        ((s.notBool x).2.notBool y).1) with
    | none => rfl
    | some rs => rfl
  · cases a <;> rfl
  · cases a <;> cases b <;> rfl

end Circus

namespace Circus

/-! ## Claim C4: constraint-system invariant -/

theorem runCmds_invariant {F : Type} :
    ∀ (cmds : List (Cmd F)) (s s' : ArithmeticSystem F),
    (∀ c ∈ s.constraints, c.dim ≤ s.num_vars) →
    runCmds s cmds = some s' →
    ∀ c ∈ s'.constraints, c.dim ≤ s'.num_vars := by
  intro cmds
  induction cmds with
  | nil =>
    intro s s' hinv h
    simp [runCmds] at h
    subst h
    exact hinv
  | cons cmd cmds ih =>
    intro s s' hinv h
    cases cmd with
    | declare =>
      rw [runCmds] at h
      refine ih _ s' ?_ h
      intro c hc
      exact le_trans (hinv c hc) (Nat.le_succ _)
    | satisfy c0 =>
      rw [runCmds] at h
      cases hs : s.satisfy c0 with
      | none => rw [hs] at h; cases h
      | some s2 =>
        rw [hs] at h
        refine ih s2 s' ?_ h
        unfold ArithmeticSystem.satisfy at hs
        by_cases hd : c0.dim ≤ s.num_vars
        · rw [if_pos hd] at hs
          injection hs with hs
          subst hs
          intro c hc
          simp only [List.mem_append, List.mem_singleton] at hc
          rcases hc with hc | rfl
          · exact hinv c hc
          · exact hd
        · rw [if_neg hd] at hs
          cases hs

/-- C4: every system reachable from `ArithmeticSystem::new()` by a
sequence of `declare`/`satisfy` calls keeps every stored constraint's
dimension at most `num_vars`, and a `satisfy` call whose constraint's
dimension exceeds `num_vars` faults deterministically (the assertion
fails, modelled as `none`) instead of storing the constraint. -/
theorem arithmetic_system_invariant {F : Type} (cmds : List (Cmd F))
    (s : ArithmeticSystem F) (c : ProductConstraint F)
    (h : runCmds (ArithmeticSystem.new F) cmds = some s)
    (hc : s.num_vars < c.dim) :
    (s.constraints.all (fun k => decide (k.dim ≤ s.num_vars))) = true ∧
    s.satisfy c = none := by
  constructor
  · rw [List.all_eq_true]
    intro k hk
    have := runCmds_invariant cmds (ArithmeticSystem.new F) s
      (by intro c0 hc0; cases hc0) h k hk
    simpa using this
  · unfold ArithmeticSystem.satisfy
    rw [if_neg (by omega)]

/-- C4 witness: the theorem applied to the run `[declare]` (which yields a
system with one variable and no constraints) and a probe constraint of
dimension 2, which `satisfy` rejects. -/
theorem arithmetic_system_invariant_witness :
    ((⟨1, []⟩ : ArithmeticSystem (ZMod 2)).constraints.all
        (fun k =>
          decide (k.dim ≤ (⟨1, []⟩ : ArithmeticSystem (ZMod 2)).num_vars)))
      = true ∧
    (⟨1, []⟩ : ArithmeticSystem (ZMod 2)).satisfy
        ⟨⟨0, [(1, 1)]⟩, ⟨1, []⟩, ⟨0, []⟩⟩ = none :=
  arithmetic_system_invariant [Cmd.declare] ⟨1, []⟩
    ⟨⟨0, [(1, 1)]⟩, ⟨1, []⟩, ⟨0, []⟩⟩ (by decide) (by decide)

end Circus

namespace Circus

/-! ## Claims C5 and C6: xor and negation over the constraint backend -/

theorem evalCoeffs_insertCoeff {F : Type} [CommRing F] (k : Nat) (c : F) :
    ∀ (l : List (Nat × F)) (σ : Nat → F),
    LinearFormula.evalCoeffs (LinearFormula.insertCoeff k c l) σ
      = c * σ k + LinearFormula.evalCoeffs l σ := by
  intro l
  induction l with
  | nil =>
    intro σ
    simp [LinearFormula.insertCoeff, LinearFormula.evalCoeffs]
  | cons p rest ih =>
    intro σ
    obtain ⟨k2, c2⟩ := p
    rw [LinearFormula.insertCoeff]
    by_cases h1 : k < k2
    · rw [if_pos h1]
      simp [LinearFormula.evalCoeffs]
    · rw [if_neg h1]
      by_cases h2 : k = k2
      · rw [if_pos h2]
        subst h2
        simp only [LinearFormula.evalCoeffs, List.foldr_cons]
        ring
      · rw [if_neg h2]
        simp only [LinearFormula.evalCoeffs, List.foldr_cons] at ih ⊢
        rw [ih σ]
        ring

theorem evalCoeffs_addCoeffs {F : Type} [CommRing F] :
    ∀ (xs ys : List (Nat × F)) (σ : Nat → F),
    LinearFormula.evalCoeffs (LinearFormula.addCoeffs xs ys) σ
      = LinearFormula.evalCoeffs xs σ + LinearFormula.evalCoeffs ys σ := by
  intro xs
  induction xs with
  | nil =>
    intro ys σ
    simp [LinearFormula.addCoeffs, LinearFormula.evalCoeffs]
  | cons p rest ih =>
    intro ys σ
    have hfold : LinearFormula.addCoeffs (p :: rest) ys
        = LinearFormula.insertCoeff p.1 p.2 (LinearFormula.addCoeffs rest ys) :=
      rfl
    rw [hfold, evalCoeffs_insertCoeff, ih]
    simp only [LinearFormula.evalCoeffs, List.foldr_cons]
    ring

theorem eval_add {F : Type} [CommRing F] (a b : LinearFormula F)
    (σ : Nat → F) :
    (a.add b).eval σ = a.eval σ + b.eval σ := by
  simp only [LinearFormula.eval, LinearFormula.add, evalCoeffs_addCoeffs]
  ring

theorem evalCoeffs_negCoeffs {F : Type} [CommRing F] :
    ∀ (xs : List (Nat × F)) (σ : Nat → F),
    LinearFormula.evalCoeffs (LinearFormula.negCoeffs xs) σ
      = -LinearFormula.evalCoeffs xs σ := by
  intro xs
  induction xs with
  | nil => intro σ; simp [LinearFormula.negCoeffs, LinearFormula.evalCoeffs]
  | cons p rest ih =>
    intro σ
    simp only [LinearFormula.negCoeffs, List.map_cons,
      LinearFormula.evalCoeffs, List.foldr_cons] at ih ⊢
    rw [ih]
    ring

theorem eval_sub {F : Type} [CommRing F] (a b : LinearFormula F)
    (σ : Nat → F) :
    (a.sub b).eval σ = a.eval σ - b.eval σ := by
  simp only [LinearFormula.eval, LinearFormula.sub, evalCoeffs_addCoeffs,
    evalCoeffs_negCoeffs]
  ring

/-- C5: in a field of characteristic 2 (`1 + 1 = 0`), `xor` over the
arithmetic-constraint backend returns the linear-combination sum `a + b`
and the very same system state (no variable declared, no constraint
appended), and at any assignment where both operands evaluate to 0 or 1
the result evaluates to their exclusive-or (1 exactly when the two
evaluations differ). -/
theorem xor_char_two {F : Type} [CommRing F] [DecidableEq F]
    (hchar : (1 + 1 : F) = 0) (s : ArithmeticSystem F)
    (a b : LinearFormula F) (σ : Nat → F)
    (ha : a.eval σ = 0 ∨ a.eval σ = 1) (hb : b.eval σ = 0 ∨ b.eval σ = 1) :
    ArithmeticSystem.xorBool s a b = some (a.add b, s) ∧
    (a.add b).eval σ
      = (if (a.eval σ = 1) ↔ (b.eval σ = 1) then (0 : F) else 1) := by
  constructor
  · rw [ArithmeticSystem.xorBool, if_pos hchar]
  · rw [eval_add]
    rcases ha with ha | ha <;> rcases hb with hb | hb
    · rw [ha, hb, if_pos Iff.rfl]
      ring
    · rw [ha, hb]
      by_cases h : (0 : F) = 1 ↔ (1 : F) = 1
      · rw [if_pos h]
        simp [(h.mpr rfl).symm]
      · rw [if_neg h]
        ring
    · rw [ha, hb]
      by_cases h : (1 : F) = 1 ↔ (0 : F) = 1
      · rw [if_pos h]
        simp [(h.mp rfl).symm]
      · rw [if_neg h]
        ring
    · rw [ha, hb, if_pos Iff.rfl]
      exact hchar

/-- C5 witness: the theorem applied over `ZMod 2` to the constant-true and
constant-false handles at the all-ones assignment. -/
theorem xor_char_two_witness :
    (1 + 1 : ZMod 2) = 0 ∧
    (ArithmeticSystem.constBool true : LinearFormula (ZMod 2)).eval
        (fun _ => 1) = 1 ∧
    (ArithmeticSystem.constBool false : LinearFormula (ZMod 2)).eval
        (fun _ => 1) = 0 ∧
    (ArithmeticSystem.xorBool (ArithmeticSystem.new (ZMod 2))
        (ArithmeticSystem.constBool true) (ArithmeticSystem.constBool false)
      = some
        ((ArithmeticSystem.constBool true).add
          (ArithmeticSystem.constBool false),
         ArithmeticSystem.new (ZMod 2)) ∧
      ((ArithmeticSystem.constBool true).add
          (ArithmeticSystem.constBool false)).eval (fun _ => 1)
        = (if ((ArithmeticSystem.constBool true :
              LinearFormula (ZMod 2)).eval (fun _ => 1) = 1) ↔
              ((ArithmeticSystem.constBool false :
              LinearFormula (ZMod 2)).eval (fun _ => 1) = 1)
           then (0 : ZMod 2) else 1)) :=
  ⟨by decide, by decide, by decide,
    xor_char_two (by decide) (ArithmeticSystem.new (ZMod 2))
      (ArithmeticSystem.constBool true) (ArithmeticSystem.constBool false)
      (fun _ => 1) (by decide) (by decide)⟩

/-- C6: `not` over the arithmetic-constraint backend returns the linear
combination `1 − h` (the constant-1 formula minus the handle) and leaves
the system untouched (same `num_vars`, same constraint list), and at any
assignment the returned formula evaluates to `1 −` the handle's value. -/
theorem not_is_one_minus {F : Type} [CommRing F] (s : ArithmeticSystem F)
    (v : LinearFormula F) (σ : Nat → F) :
    ArithmeticSystem.notBool s v = ((LinearFormula.constant 1).sub v, s) ∧
    ((ArithmeticSystem.notBool s v).2.num_vars = s.num_vars ∧
      (ArithmeticSystem.notBool s v).2.constraints = s.constraints) ∧
    ((ArithmeticSystem.notBool s v).1).eval σ = 1 - v.eval σ := by
  refine ⟨rfl, ⟨rfl, rfl⟩, ?_⟩
  rw [show (ArithmeticSystem.notBool s v).1 = (LinearFormula.constant 1).sub v
      from rfl,
    eval_sub]
  simp [LinearFormula.eval, LinearFormula.constant, LinearFormula.evalCoeffs]

end Circus

namespace Circus

/-! ## Claim C9: the dimension of a linear formula -/

theorem key_le_getLast {F : Type} :
    ∀ l : List (Nat × F), l.Chain' (fun p q => p.1 < q.1) →
    ∀ p ∈ l, ∀ q, l.getLast? = some q → p.1 ≤ q.1 := by
  intro l
  induction l with
  | nil => intro _ p hp; cases hp
  | cons x xs ih =>
    intro hch p hp q hq
    cases xs with
    | nil =>
      simp at hp hq
      subst hp
      subst hq
      exact le_refl _
    | cons y ys =>
      have hch2 := List.chain'_cons.mp hch
      have hq2 : (y :: ys).getLast? = some q := by
        simpa [List.getLast?_cons_cons] using hq
      rcases List.mem_cons.mp hp with rfl | hp
      · have hy := ih hch2.2 y (List.mem_cons_self y ys) q hq2
        have := hch2.1
        omega
      · exact ih hch2.2 p hp q hq2

theorem key_lt_dim {F : Type} (φ : LinearFormula F) (hwf : φ.WF)
    (p : Nat × F) (hp : p ∈ φ.coeffs) : p.1 < φ.dim := by
  cases hq : φ.coeffs.getLast? with
  | none =>
    rw [List.getLast?_eq_none_iff] at hq
    rw [hq] at hp
    cases hp
  | some q =>
    have h1 := key_le_getLast φ.coeffs hwf p hp q hq
    have h2 : φ.dim = q.1 + 1 := by simp [LinearFormula.dim, hq]
    omega

/-- C9 counterexample: the claim fails on a well-formed formula holding a
single entry with key 0 and coefficient exactly 0 (over `ZMod 2`): the
source's `dim` counts the key and returns 1, while the claimed
"one more than the highest variable index with a NONZERO coefficient, 0 if
none" yields 0. -/
theorem dim_counts_zero_coefficient_entry :
    (⟨0, [(0, 0)]⟩ : LinearFormula (ZMod 2)).WF ∧
    (⟨0, [(0, 0)]⟩ : LinearFormula (ZMod 2)).dim = 1 ∧
    LinearFormula.dimSpec (⟨0, [(0, 0)]⟩ : LinearFormula (ZMod 2)) = 0 := by
  refine ⟨?_, by decide, by decide⟩
  simp [LinearFormula.WF]

/-- C9 (amended): `dim()` returns one more than the highest key present in
the coefficient map — every stored key, including keys whose coefficient
is exactly zero, is below `dim()` — and `dim()` is 0 exactly when the map
is empty; dropping any subset of the entries (in particular the net-zero
ones) can only lower `dim()`, never raise it. -/
theorem dim_amended {F : Type} (φ ψ : LinearFormula F) (hwf : φ.WF)
    (hsub : ψ.coeffs.Sublist φ.coeffs) :
    (φ.coeffs.all (fun p => decide (p.1 < φ.dim))) = true ∧
    (φ.dim = 0 ↔ φ.coeffs = []) ∧
    ψ.dim ≤ φ.dim := by
  refine ⟨?_, ?_, ?_⟩
  · rw [List.all_eq_true]
    intro p hp
    simpa using key_lt_dim φ hwf p hp
  · cases hq : φ.coeffs.getLast? with
    | none =>
      rw [List.getLast?_eq_none_iff] at hq
      simp [LinearFormula.dim, hq]
    | some q =>
      have h2 : φ.dim = q.1 + 1 := by simp [LinearFormula.dim, hq]
      rw [h2]
      constructor
      · intro h
        omega
      · intro h
        rw [h] at hq
        cases hq
  · cases hq : ψ.coeffs.getLast? with
    | none =>
      have h2 : ψ.dim = 0 := by simp [LinearFormula.dim, hq]
      omega
    | some q =>
      have h2 : ψ.dim = q.1 + 1 := by simp [LinearFormula.dim, hq]
      have hqmem : q ∈ ψ.coeffs := List.mem_of_getLast?_eq_some hq
      have := key_lt_dim φ hwf q (hsub.subset hqmem)
      omega

/-- C9 witness: the amended theorem applied to the two-entry formula with
keys 0 and 2 and its one-entry sublist. -/
theorem dim_amended_witness :
    (⟨0, [(0, 1), (2, 1)]⟩ : LinearFormula (ZMod 2)).WF ∧
    ((⟨0, [(2, 1)]⟩ : LinearFormula (ZMod 2)).coeffs.Sublist
      (⟨0, [(0, 1), (2, 1)]⟩ : LinearFormula (ZMod 2)).coeffs) ∧
    (((⟨0, [(0, 1), (2, 1)]⟩ : LinearFormula (ZMod 2)).coeffs.all
        (fun p =>
          decide (p.1 < (⟨0, [(0, 1), (2, 1)]⟩ :
            LinearFormula (ZMod 2)).dim))) = true ∧
      ((⟨0, [(0, 1), (2, 1)]⟩ : LinearFormula (ZMod 2)).dim = 0 ↔
        (⟨0, [(0, 1), (2, 1)]⟩ : LinearFormula (ZMod 2)).coeffs = []) ∧
      (⟨0, [(2, 1)]⟩ : LinearFormula (ZMod 2)).dim
        ≤ (⟨0, [(0, 1), (2, 1)]⟩ : LinearFormula (ZMod 2)).dim) :=
  ⟨by simp [LinearFormula.WF], by simp,
    dim_amended _ _ (by simp [LinearFormula.WF]) (by simp)⟩

end Circus
